import Mathlib

/-!
Verification of the momepy intensity module (`momepy/intensity.py`).

Shallow embedding conventions:
* pandas/GeoDataFrames become Lean lists of rows; positional indices
  (`iterrows` over a RangeIndex, `iloc`) become `List.range` / positional
  `getElem?` access;
* the libpysal weights object `spatial_weights.neighbors` (a dict of lists)
  becomes a function `Nat → List Nat`; functions that mutate it in place
  (`neighbours.append(index)`) thread the updated function as explicit state;
* IEEE float division as performed by numpy/pandas is modelled by `FloatVal`
  (`x / 0` is `inf`/`-inf`/`nan` by the sign of `x`, never an exception);
  exact arithmetic is `ℚ`;
* a numpy `NaN` entry of a value column is `none : Option ℚ`;
* Python exceptions that abort a call become `Except String`.
-/

/-- Result of a numpy/pandas float division: a finite rational or one of the
special values produced by dividing by zero. -/
inductive FloatVal
  | finite (q : ℚ)
  | inf
  | negInf
  | nan
deriving DecidableEq

/-- Float division semantics used by pandas/numpy for the divisions appearing
in the source: division by zero silently yields `inf`, `-inf` or `nan`
according to the sign of the numerator; it never raises. -/
def divF (x y : ℚ) : FloatVal :=
  if y = 0 then (if 0 < x then FloatVal.inf else if x < 0 then FloatVal.negInf else FloatVal.nan)
  else FloatVal.finite (x / y)

/-- `covered_area_ratio(left, right, left_areas, right_areas, unique_id)`
(intensity.py lines 13-62).  A `left` row is `(unique_id, left_area)`, a
`right` row is `(unique_id, right_area)`.  The source keeps only the id and
area columns of `right`, inner-merges onto `left` by the shared id (pandas
merge order: left rows in order, matching right rows in right order), then for
every merged row divides the joined right area by the left area. -/
def covered_area_ratio (left right : List (Nat × ℚ)) : List FloatVal :=
  ((left.map (fun l => (right.filter (fun r => decide (r.1 = l.1))).map (fun r => (l, r)))).flatten).map
    (fun p => divF p.2.2 p.1.2)

/-- `floor_area_ratio(left, right, left_areas, right_areas, unique_id)`
(intensity.py lines 65-114).  The body is line-for-line the same computation
as `covered_area_ratio`: keep id and area columns of `right`, inner-merge on
the shared id, divide the joined area by the left area row by row. -/
def floor_area_ratio (left right : List (Nat × ℚ)) : List FloatVal :=
  ((left.map (fun l => (right.filter (fun r => decide (r.1 = l.1))).map (fun r => (l, r)))).flatten).map
    (fun p => divF p.2.2 p.1.2)

/-- Shapely geometry type strings distinguished by `elements_count`. -/
inductive GType
  | polygon
  | multiPolygon
  | lineString
  | multiLineString
  | point
  | other
deriving DecidableEq

/-- Geometry kinds accepted by the area branch of `elements_count`. -/
def polygonal (g : GType) : Prop := g = GType.polygon ∨ g = GType.multiPolygon

/-- Geometry kinds accepted by the length branch of `elements_count`. -/
def linear (g : GType) : Prop := g = GType.lineString ∨ g = GType.multiLineString

instance (g : GType) : Decidable (polygonal g) := by unfold polygonal; infer_instance

instance (g : GType) : Decidable (linear g) := by unfold linear; infer_instance

/-- One row of the `left` GeoDataFrame of `elements_count`: its id value in
the `left_id` column, its geometry type, and its geometry-derived area and
length. -/
structure GeomRow where
  gid : Nat
  gtype : GType
  area : ℚ
  glen : ℚ
deriving DecidableEq

/-- Default row used for `getD` access. -/
def defRow : GeomRow := ⟨0, GType.other, 0, 0⟩

/-- `collections.Counter(keys)[k]`: the number of occurrences of `k` in
`keys` (0 for an absent key). -/
def counterOf (keys : List Nat) (k : Nat) : Nat :=
  (keys.filter (fun x => decide (x = k))).length

/-- `elements_count(left, right, left_id, right_id, weighted)` (intensity.py
lines 117-168).  `right` is abstracted to the list of its `right_id` column
values.  The joined `mm_count` of a left row is the counter value of its id
(missing join partners become 0, line 158).  With `weighted=True` the source
inspects only `left.geometry[0]`: if the FIRST geometry is polygonal every
count is divided by that row's area, if it is linear by its length, and
otherwise `TypeError('Geometry type does not support weighting.')` is raised
(an empty frame makes `left.geometry[0]` itself raise). -/
def elements_count (left : List GeomRow) (right : List Nat) (weighted : Bool) :
    Except String (List FloatVal) :=
  let counts := left.map (fun r => ((counterOf right r.gid : ℚ)))
  if weighted then
    match left with
    | [] => Except.error "index 0 out of bounds"
    | r0 :: _ =>
      if polygonal r0.gtype then
        Except.ok ((left.zip counts).map (fun p => divF p.2 p.1.area))
      else if linear r0.gtype then
        Except.ok ((left.zip counts).map (fun p => divF p.2 p.1.glen))
      else
        Except.error "Geometry type does not support weighting."
  else
    Except.ok (counts.map FloatVal.finite)

/-- The inner grouping traversal of `courtyards` (intensity.py lines 214-225):
`toJoin` is the `to_join` list, the queue is the tail of the `neighbours` list
still to be visited (a Python `for` over a list that is appended to while
iterated is exactly a FIFO queue).  Each step pops `n`; if it is already in
`to_join` nothing happens, otherwise it is appended and its neighbors are
pushed.  The source loops until the queue is exhausted; here a fuel argument
makes the recursion structural, and `phi` below provably suffices as fuel. -/
def crawl (adj : Nat → List Nat) : Nat → List Nat → List Nat → List Nat
  | 0, toJoin, _ => toJoin
  | _ + 1, toJoin, [] => toJoin
  | fuel + 1, toJoin, n :: rest =>
    if n ∈ toJoin then crawl adj fuel toJoin rest
    else crawl adj fuel (toJoin ++ [n]) (rest ++ adj n)

/-- Potential of the still-unjoined part of the universe: each unit outside
`toJoin` can contribute one pop of itself plus pushes of its neighbor list. -/
def sumPart (adj : Nat → List Nat) (N : Nat) (toJoin : List Nat) : Nat :=
  ((Finset.range N).filter (fun i => i ∉ toJoin)).sum (fun i => 1 + (adj i).length)

/-- Fuel bound for `crawl`: queue length plus the potential of `toJoin`. -/
def phi (adj : Nat → List Nat) (N : Nat) (toJoin queue : List Nat) : Nat :=
  queue.length + sumPart adj N toJoin

/-- The `to_join` list computed by one outer iteration of `courtyards` seeded
at `s` (initial `to_join = [s]`, initial queue = the neighbor list of `s`). -/
def component (adj : Nat → List Nat) (N s : Nat) : List Nat :=
  crawl adj (phi adj N [s] (adj s)) [s] (adj s)

/-- Reachability along the adjacency relation (`b` is a neighbor of `a`). -/
def Reach (adj : Nat → List Nat) : Nat → Nat → Prop :=
  Relation.ReflTransGen (fun a b => b ∈ adj a)

/-- `for b in to_join: courtyards[b] = interiors` (lines 232-233): store the
value `v` under every key of `xs` in the dict `d`. -/
def dictInsertAll (d : Nat → Option Int) (xs : List Nat) (v : Int) : Nat → Option Int :=
  xs.foldl (fun acc b => fun x => if x = b then some v else acc x) d

/-- One outer iteration of `courtyards` (lines 209-233): skip the index if it
already has a value, otherwise compute its `to_join` component and assign the
per-component statistic (the interior-ring count of the buffered union, an
opaque geometry-collaborator function `stat` of the joined rows) to every
member. -/
def courtyardsStep (adj : Nat → List Nat) (stat : List Nat → Int) (N : Nat)
    (d : Nat → Option Int) (index : Nat) : Nat → Option Int :=
  if (d index).isSome then d
  else dictInsertAll d (component adj N index) (stat (component adj N index))

/-- The dict state of `courtyards` after processing the first `k` rows. -/
def dictUpto (adj : Nat → List Nat) (stat : List Nat → Int) (N k : Nat) : Nat → Option Int :=
  (List.range k).foldl (courtyardsStep adj stat N) (fun _ => none)

/-- The completed `courtyards` dict after the main loop over all `N` rows. -/
def courtyardsDict (adj : Nat → List Nat) (stat : List Nat → Int) (N : Nat) : Nat → Option Int :=
  dictUpto adj stat N N

/-- The result series of `courtyards` (lines 235-240): one dict lookup per
row, in row order. -/
def courtyardsFn (adj : Nat → List Nat) (stat : List Nat → Int) (N : Nat) : List (Option Int) :=
  (List.range N).map (courtyardsDict adj stat N)

/-- The adjacency graph of the spec scenario:
`{0:[1], 1:[0,2], 2:[1], 3:[4], 4:[3]}`. -/
def exAdj : Nat → List Nat
  | 0 => [1]
  | 1 => [0, 2]
  | 2 => [1]
  | 3 => [4]
  | 4 => [3]
  | _ => []

/-- The per-row loop of `reached` with spatial weights (intensity.py lines
364-370), threading the weights dict as state because line 369
(`neighbours.append(index)`) mutates the list held by the weights object in
place.  For each positional index in order: read the current neighbor list,
append the index to it (persistently, in the weights state), and record
`left.iloc[neighbours].nID` — the `nID` values at those positions. -/
def reachedGo (leftIds : List Nat) :
    List Nat → (Nat → List Nat) → List (List Nat) × (Nat → List Nat)
  | [], w => ([], w)
  | i :: rest, w =>
    let nbrs := w i ++ [i]
    let w' := fun j => if j = i then nbrs else w j
    let ids := nbrs.filterMap (fun j => leftIds[j]?)
    let r := reachedGo leftIds rest w'
    (ids :: r.1, r.2)

/-- The full iteration of `reached` over all rows of `left` (`left` is
abstracted to its `nID` column), returning the per-row reached id lists and
the final, mutated weights. -/
def reachedLoop (leftIds : List Nat) (w : Nat → List Nat) :
    List (List Nat) × (Nat → List Nat) :=
  reachedGo leftIds (List.range leftIds.length) w

/-- The per-row reached id lists of `reached`. -/
def reachedIds (leftIds : List Nat) (w : Nat → List Nat) : List (List Nat) :=
  (reachedLoop leftIds w).1

/-- `reached` with `mode='count'` (lines 360-375): `count` is the Counter of
the `right` key column; each row's result is the sum of `count[nid]` over its
reached id list (duplicate ids contribute repeatedly, as in the source). -/
def reachedCount (leftIds : List Nat) (right : List Nat) (w : Nat → List Nat) : List Nat :=
  (reachedIds leftIds w).map (fun ids => (ids.map (fun nid => counterOf right nid)).sum)

/-- `np.nanmean`: arithmetic mean over the non-`NaN` entries; the all-`NaN` /
empty slice yields `NaN` (here `none`) with a warning, not an exception. -/
def nanmean (xs : List (Option ℚ)) : Option ℚ :=
  let vs := xs.reduceOption
  if vs.isEmpty then none else some (vs.sum / vs.length)

/-- Arithmetic mean of a list of rationals. -/
def arithMean (vs : List ℚ) : ℚ := vs.sum / vs.length

/-- Population variance (divisor `n`, not `n-1`) of a list of rationals.
`np.nanstd` of the same data is the square root of this value; since
`Real.sqrt` is a strictly monotone bijection of `[0,∞)` with `√0 = 0`, every
definedness / zero / equality statement about the standard deviation is
equivalent to the same statement about this square. -/
def popVar (vs : List ℚ) : ℚ := ((vs.map (fun x => (x - arithMean vs) ^ 2)).sum) / vs.length

/-- The square of `np.nanstd`: population variance over the non-`NaN`
entries; the all-`NaN` / empty slice yields `NaN` (here `none`), not an
exception. -/
def nanvar (xs : List (Option ℚ)) : Option ℚ :=
  let vs := xs.reduceOption
  if vs.isEmpty then none else some (popVar vs)

/-- The value slice `right.loc[right[unique_id].isin(ids)][values]` of
`reached` for every row (lines 381-390): `right` rows are `(key, value)` with
`none` for a `NaN` value; `isin` is set membership of the key in the row's
reached id list. -/
def reachedVals (leftIds : List Nat) (right : List (Nat × Option ℚ))
    (w : Nat → List Nat) : List (List (Option ℚ)) :=
  (reachedIds leftIds w).map
    (fun ids => (right.filter (fun r => decide (r.1 ∈ ids))).map (fun r => r.2))

/-- The qualifying (non-missing) values of row `i` of `reached`. -/
def qualVals (leftIds : List Nat) (right : List (Nat × Option ℚ))
    (w : Nat → List Nat) (i : Nat) : List ℚ :=
  ((reachedVals leftIds right w).getD i []).reduceOption

/-- `reached` with `mode='mean'` (lines 381-385): `np.nanmean` of each row's
qualifying value slice. -/
def reachedMean (leftIds : List Nat) (right : List (Nat × Option ℚ))
    (w : Nat → List Nat) : List (Option ℚ) :=
  (reachedVals leftIds right w).map nanmean

/-- The square of `reached` with `mode='std'` (lines 386-390): `np.nanstd` of
each row's qualifying value slice, squared (see `popVar`). -/
def reachedVar (leftIds : List Nat) (right : List (Nat × Option ℚ))
    (w : Nat → List Nat) : List (Option ℚ) :=
  (reachedVals leftIds right w).map nanvar

/-- One row of the tessellation GeoDataFrame of `blocks_count`: its
`unique_id` value, its block id, and its geometry area. -/
structure TessRow where
  uid : Nat
  bid : Nat
  area : ℚ
deriving DecidableEq

/-- The per-row loop of `blocks_count` (intensity.py lines 290-298), threading
the weights dict as state because line 293 (`neighbours.append(...)`) mutates
the list held by the weights object.  When the neighbor list is empty the
source binds `neighbours` to the bare scalar `row[unique_id]` (line 295) and
`Series.isin(scalar)` raises `TypeError`, aborting the whole call; the state
reached so far is returned alongside the error.  Otherwise the vicinity rows
are those whose id is in the (mutated) neighbor list, and the row's value is
the number of distinct block ids divided by the summed vicinity area. -/
def blocksGo (gdf : List TessRow) :
    List TessRow → (Nat → List Nat) → Except String (List FloatVal) × (Nat → List Nat)
  | [], w => (Except.ok [], w)
  | row :: rest, w =>
    let nbrs := w row.uid
    if nbrs.isEmpty then
      (Except.error "only list-like objects are allowed to be passed to isin()", w)
    else
      let nbrs' := nbrs ++ [row.uid]
      let w' := fun j => if j = row.uid then nbrs' else w j
      let vicinity := gdf.filter (fun r => decide (r.uid ∈ nbrs'))
      let res := divF ((vicinity.map (fun r => r.bid)).dedup.length : ℚ)
        ((vicinity.map (fun r => r.area)).sum)
      match blocksGo gdf rest w' with
      | (Except.ok rs, wf) => (Except.ok (res :: rs), wf)
      | (Except.error e, wf) => (Except.error e, wf)

/-- `blocks_count(gdf, block_id, spatial_weights, unique_id)` (lines 243-303):
iterate the per-row computation over the whole frame. -/
def blocks_count (gdf : List TessRow) (w : Nat → List Nat) :
    Except String (List FloatVal) × (Nat → List Nat) :=
  blocksGo gdf gdf w

/-- Summed length of the edges whose start and end nodes both lie in `nbrs`
(`node_density` lines 454-455).  An edge is `(node_start, node_end, length)`. -/
def incidentLength (edges : List (Nat × Nat × ℚ)) (nbrs : List Nat) : ℚ :=
  ((edges.filter (fun e => decide (e.1 ∈ nbrs) && decide (e.2.1 ∈ nbrs))).map
    (fun e => e.2.2)).sum

/-- The node count of `node_density` (lines 448-452): with `weighted=True` the
sum of `degree - 1` over the rows at the neighbor positions (duplicates
included, as `iloc` duplicates rows), otherwise the length of the neighbor
list. -/
def nodeCount (degrees : List ℚ) (nbrs : List Nat) (weighted : Bool) : ℚ :=
  if weighted then ((nbrs.filterMap (fun j => degrees[j]?)).map (fun d => d - 1)).sum
  else (nbrs.length : ℚ)

/-- `node_density(left, right, spatial_weights, weighted, ...)` (lines
398-464).  `left` is abstracted to its node-degree column, `right` to its
`(node_start, node_end, length)` columns.  Line 446 copies the neighbor list
(`list(...)`), so the weights are not mutated here; the seed is appended to
the copy.  If the incident length is positive the node count is divided by
it, otherwise the row's value is 0 (lines 457-460). -/
def node_density (degrees : List ℚ) (edges : List (Nat × Nat × ℚ))
    (w : Nat → List Nat) (weighted : Bool) : List ℚ :=
  (List.range degrees.length).map (fun index =>
    let neighbours := w index ++ [index]
    let len := incidentLength edges neighbours
    if 0 < len then nodeCount degrees neighbours weighted / len else 0)

/-- Weights of the spec scenario for `reached`: positions 0 and 1 are mutual
neighbors. -/
def wPair : Nat → List Nat := fun i => if i = 0 then [1] else if i = 1 then [0] else []

/-- Weights keyed by `unique_id` for the `blocks_count` mutation example:
units 5 and 6 are mutual neighbors. -/
def wBlk : Nat → List Nat := fun i => if i = 5 then [6] else if i = 6 then [5] else []

/-- Weights with a self-loop at position 0. -/
def selfW : Nat → List Nat := fun i => if i = 0 then [0] else []

/-- Weights with no neighbors anywhere (every unit is isolated). -/
def emptyW : Nat → List Nat := fun _ => []

/-- Mixed-geometry left frame: first row a polygon of area 1, second row a
point (area 0). -/
def mixedL : List GeomRow := [⟨0, GType.polygon, 1, 0⟩, ⟨1, GType.point, 0, 0⟩]

/-- Single-row polygonal left frame whose unit has area 0. -/
def zeroL : List GeomRow := [⟨5, GType.polygon, 0, 0⟩]

/-! ### Helper lemmas about the courtyards traversal -/

theorem dictInsertAll_apply (d : Nat → Option Int) (xs : List Nat) (v : Int) (u : Nat) :
    dictInsertAll d xs v u = if u ∈ xs then some v else d u := by
  induction xs generalizing d with
  | nil => simp [dictInsertAll]
  | cons b xs ih =>
    show dictInsertAll (fun x => if x = b then some v else d x) xs v u = _
    rw [ih]
    by_cases hx : u ∈ xs
    · rw [if_pos hx, if_pos (List.mem_cons_of_mem b hx)]
    · rw [if_neg hx]
      by_cases hb : u = b
      · rw [if_pos hb, if_pos (by simp [hb])]
      · rw [if_neg hb, if_neg (by simp [hb, hx])]

theorem crawl_subset (adj : Nat → List Nat) :
    ∀ (fuel : Nat) (toJoin queue : List Nat), toJoin ⊆ crawl adj fuel toJoin queue := by
  intro fuel
  induction fuel with
  | zero => intro toJoin queue; simp [crawl]
  | succ fuel ih =>
    intro toJoin queue
    cases queue with
    | nil => simp [crawl]
    | cons n rest =>
      by_cases h : n ∈ toJoin
      · simpa [crawl, if_pos h] using ih toJoin rest
      · simp only [crawl, if_neg h]
        exact fun x hx => ih (toJoin ++ [n]) (rest ++ adj n) (List.mem_append_left _ hx)

theorem crawl_sound (adj : Nat → List Nat) (s : Nat) :
    ∀ (fuel : Nat) (toJoin queue : List Nat),
      (∀ x ∈ toJoin, Reach adj s x) → (∀ x ∈ queue, Reach adj s x) →
      ∀ x ∈ crawl adj fuel toJoin queue, Reach adj s x := by
  intro fuel
  induction fuel with
  | zero => intro toJoin queue ht _ x hx; exact ht x (by simpa [crawl] using hx)
  | succ fuel ih =>
    intro toJoin queue ht hq x hx
    cases queue with
    | nil => exact ht x (by simpa [crawl] using hx)
    | cons n rest =>
      by_cases h : n ∈ toJoin
      · refine ih toJoin rest ht (fun y hy => hq y (List.mem_cons_of_mem _ hy)) x ?_
        simpa [crawl, if_pos h] using hx
      · refine ih (toJoin ++ [n]) (rest ++ adj n) ?_ ?_ x ?_
        · intro y hy
          rcases List.mem_append.mp hy with h1 | h1
          · exact ht y h1
          · have hyn : y = n := by simpa using h1
            subst hyn; exact hq y (List.mem_cons_self _ _)
        · intro y hy
          rcases List.mem_append.mp hy with h1 | h1
          · exact hq y (List.mem_cons_of_mem _ h1)
          · exact Relation.ReflTransGen.tail (hq n (List.mem_cons_self _ _)) h1
        · simpa [crawl, if_neg h] using hx

theorem sumPart_insert (adj : Nat → List Nat) (N n : Nat) (toJoin : List Nat)
    (hn : n < N) (hmem : n ∉ toJoin) :
    sumPart adj N toJoin = (1 + (adj n).length) + sumPart adj N (toJoin ++ [n]) := by
  unfold sumPart
  have hset : (Finset.range N).filter (fun i => i ∉ toJoin) =
      insert n ((Finset.range N).filter (fun i => i ∉ toJoin ++ [n])) := by
    ext i
    simp only [Finset.mem_filter, Finset.mem_insert, Finset.mem_range, List.mem_append,
      List.mem_singleton]
    constructor
    · rintro ⟨hiN, hit⟩
      by_cases hin : i = n
      · exact Or.inl hin
      · exact Or.inr ⟨hiN, fun hcon => hcon.elim hit hin⟩
    · intro h
      rcases h with h | ⟨hiN, hit⟩
      · subst h; exact ⟨hn, hmem⟩
      · exact ⟨hiN, fun hi => hit (Or.inl hi)⟩
  rw [hset, Finset.sum_insert (by simp)]

theorem crawl_closed (adj : Nat → List Nat) (N : Nat)
    (hadj : ∀ i j, j ∈ adj i → j < N) :
    ∀ (fuel : Nat) (toJoin queue : List Nat),
      (∀ x ∈ queue, x < N) →
      (∀ x ∈ toJoin, ∀ y ∈ adj x, y ∈ toJoin ∨ y ∈ queue) →
      phi adj N toJoin queue ≤ fuel →
      ∀ x ∈ crawl adj fuel toJoin queue, ∀ y ∈ adj x, y ∈ crawl adj fuel toJoin queue := by
  intro fuel
  induction fuel with
  | zero =>
    intro toJoin queue _ hinv hfuel
    have hq0 : queue = [] := by
      have hlen : queue.length = 0 := by unfold phi at hfuel; omega
      exact List.eq_nil_of_length_eq_zero hlen
    subst hq0
    intro x hx y hy
    simp only [crawl] at hx ⊢
    rcases hinv x hx y hy with h | h
    · exact h
    · simp at h
  | succ fuel ih =>
    intro toJoin queue hq hinv hfuel
    cases queue with
    | nil =>
      intro x hx y hy
      simp only [crawl] at hx ⊢
      rcases hinv x hx y hy with h | h
      · exact h
      · simp at h
    | cons n rest =>
      by_cases h : n ∈ toJoin
      · have hphi : phi adj N toJoin rest ≤ fuel := by
          unfold phi at hfuel ⊢
          simp only [List.length_cons] at hfuel
          omega
        have hinv' : ∀ x ∈ toJoin, ∀ y ∈ adj x, y ∈ toJoin ∨ y ∈ rest := by
          intro x hx y hy
          rcases hinv x hx y hy with h1 | h1
          · exact Or.inl h1
          · rcases List.mem_cons.mp h1 with h2 | h2
            · subst h2; exact Or.inl h
            · exact Or.inr h2
        simpa only [crawl, if_pos h] using
          ih toJoin rest (fun x hx => hq x (List.mem_cons_of_mem _ hx)) hinv' hphi
      · have hnN : n < N := hq n (List.mem_cons_self _ _)
        have hq' : ∀ x ∈ rest ++ adj n, x < N := by
          intro x hx
          rcases List.mem_append.mp hx with h1 | h1
          · exact hq x (List.mem_cons_of_mem _ h1)
          · exact hadj n x h1
        have hinv' : ∀ x ∈ toJoin ++ [n], ∀ y ∈ adj x, y ∈ toJoin ++ [n] ∨ y ∈ rest ++ adj n := by
          intro x hx y hy
          rcases List.mem_append.mp hx with h1 | h1
          · rcases hinv x h1 y hy with h2 | h2
            · exact Or.inl (List.mem_append_left _ h2)
            · rcases List.mem_cons.mp h2 with h3 | h3
              · subst h3; exact Or.inl (List.mem_append_right _ (by simp))
              · exact Or.inr (List.mem_append_left _ h3)
          · have hxn : x = n := by simpa using h1
            subst hxn
            exact Or.inr (List.mem_append_right _ hy)
        have hphi : phi adj N (toJoin ++ [n]) (rest ++ adj n) ≤ fuel := by
          unfold phi at hfuel ⊢
          rw [sumPart_insert adj N n toJoin hnN h] at hfuel
          simp only [List.length_cons, List.length_append] at hfuel ⊢
          omega
        simpa only [crawl, if_neg h] using ih (toJoin ++ [n]) (rest ++ adj n) hq' hinv' hphi

theorem component_closed (adj : Nat → List Nat) (N : Nat)
    (hadj : ∀ i j, j ∈ adj i → j < N) (s : Nat) :
    ∀ x ∈ component adj N s, ∀ y ∈ adj x, y ∈ component adj N s := by
  unfold component
  exact crawl_closed adj N hadj _ [s] (adj s) (fun x hx => hadj s x hx)
    (fun x hx y hy => by
      have hxs : x = s := by simpa using hx
      subst hxs; exact Or.inr hy)
    le_rfl

theorem self_mem_component (adj : Nat → List Nat) (N s : Nat) : s ∈ component adj N s :=
  crawl_subset adj _ [s] (adj s) (by simp)

theorem mem_component_iff (adj : Nat → List Nat) (N : Nat)
    (hadj : ∀ i j, j ∈ adj i → j < N) (s v : Nat) :
    v ∈ component adj N s ↔ Reach adj s v := by
  constructor
  · intro hv
    refine crawl_sound adj s _ [s] (adj s) ?_ ?_ v hv
    · intro x hx
      have hxs : x = s := by simpa using hx
      subst hxs; exact Relation.ReflTransGen.refl
    · intro x hx; exact Relation.ReflTransGen.single hx
  · intro hr
    unfold Reach at hr
    induction hr with
    | refl => exact self_mem_component adj N s
    | tail _ hbc ih => exact component_closed adj N hadj s _ ih _ hbc

theorem reach_symm (adj : Nat → List Nat) (hsym : ∀ i j, j ∈ adj i → i ∈ adj j)
    {u v : Nat} (h : Reach adj u v) : Reach adj v u :=
  Relation.ReflTransGen.symmetric (fun a b hab => hsym a b hab) h

theorem dictUpto_inv (adj : Nat → List Nat) (stat : List Nat → Int) (N : Nat)
    (hadj : ∀ i j, j ∈ adj i → j < N) (hsym : ∀ i j, j ∈ adj i → i ∈ adj j) (k : Nat) :
    (∀ u, (dictUpto adj stat N k u).isSome ↔ ∃ i, i < k ∧ Reach adj i u) ∧
    (∀ u v, Reach adj u v → dictUpto adj stat N k u = dictUpto adj stat N k v) := by
  induction k with
  | zero =>
    constructor
    · intro u; simp [dictUpto]
    · intro u v _; rfl
  | succ k ih =>
    obtain ⟨ih1, ih2⟩ := ih
    have hstep : dictUpto adj stat N (k + 1) = courtyardsStep adj stat N (dictUpto adj stat N k) k := by
      unfold dictUpto
      rw [List.range_succ, List.foldl_append]
      rfl
    rw [hstep]
    unfold courtyardsStep
    by_cases hk : (dictUpto adj stat N k k).isSome
    · rw [if_pos hk]
      obtain ⟨j, hjk, hjr⟩ := (ih1 k).mp hk
      constructor
      · intro u
        rw [ih1 u]
        constructor
        · rintro ⟨i, hik, hir⟩; exact ⟨i, by omega, hir⟩
        · rintro ⟨i, hik, hir⟩
          by_cases hi : i < k
          · exact ⟨i, hi, hir⟩
          · have hieq : i = k := by omega
            subst hieq
            exact ⟨j, hjk, Relation.ReflTransGen.trans hjr hir⟩
      · exact ih2
    · rw [if_neg hk]
      have happ : ∀ u, dictInsertAll (dictUpto adj stat N k) (component adj N k)
          (stat (component adj N k)) u =
          if u ∈ component adj N k then some (stat (component adj N k))
          else dictUpto adj stat N k u :=
        fun u => dictInsertAll_apply _ _ _ u
      constructor
      · intro u
        rw [happ u]
        by_cases hu : u ∈ component adj N k
        · rw [if_pos hu]
          simp only [Option.isSome_some, true_iff]
          exact ⟨k, by omega, (mem_component_iff adj N hadj k u).mp hu⟩
        · rw [if_neg hu]
          rw [ih1 u]
          constructor
          · rintro ⟨i, hik, hir⟩; exact ⟨i, by omega, hir⟩
          · rintro ⟨i, hik, hir⟩
            by_cases hi : i < k
            · exact ⟨i, hi, hir⟩
            · have hieq : i = k := by omega
              subst hieq
              exact absurd ((mem_component_iff adj N hadj i u).mpr hir) hu
      · intro u v huv
        rw [happ u, happ v]
        by_cases hu : u ∈ component adj N k
        · have hv : v ∈ component adj N k := by
            rw [mem_component_iff adj N hadj] at hu ⊢
            exact Relation.ReflTransGen.trans hu huv
          rw [if_pos hu, if_pos hv]
        · have hv : v ∉ component adj N k := by
            intro hv
            rw [mem_component_iff adj N hadj] at hv
            exact hu ((mem_component_iff adj N hadj k u).mpr
              (Relation.ReflTransGen.trans hv (reach_symm adj hsym huv)))
          rw [if_neg hu, if_neg hv]
          exact ih2 u v huv

theorem exAdj_bound : ∀ i j, j ∈ exAdj i → j < 5 := by
  intro i j h
  rcases i with _ | _ | _ | _ | _ | i <;> simp [exAdj] at h
  · omega
  · rcases h with h | h <;> omega
  · omega
  · omega
  · omega

theorem exAdj_symm : ∀ i j, j ∈ exAdj i → i ∈ exAdj j := by
  intro i j h
  rcases i with _ | _ | _ | _ | _ | i <;> simp [exAdj] at h
  · subst h; decide
  · rcases h with h | h <;> subst h <;> decide
  · subst h; decide
  · subst h; decide
  · subst h; decide

/-- C1: the grouping traversal in `courtyards` partitions the unit universe
into the connected components of the adjacency graph.  For every graph whose
neighbor references stay inside the `N`-unit universe and which is symmetric:
every unit is in its own group; group membership is exactly adjacency
reachability; two groups that share a unit are equal (so every unit belongs to
exactly one group and the groups cover the universe); any two units of one
group are mutually reachable; every unit receives a statistic and reachable
units receive the same per-component statistic; the result series has one
entry per unit; and on the 5-unit scenario `{0:[1],1:[0,2],2:[1],3:[4],4:[3]}`
the traversal yields exactly the two groups `{0,1,2}` and `{3,4}`, every
member of a group receiving that group's statistic. -/
theorem courtyards_partition (adj : Nat → List Nat) (stat : List Nat → Int) (N : Nat)
    (hadj : ∀ i j, j ∈ adj i → j < N) (hsym : ∀ i j, j ∈ adj i → i ∈ adj j) :
    (∀ u, u ∈ component adj N u) ∧
    (∀ u v, v ∈ component adj N u ↔ Reach adj u v) ∧
    (∀ u v, (∃ x, x ∈ component adj N u ∧ x ∈ component adj N v) →
      ∀ y, (y ∈ component adj N u ↔ y ∈ component adj N v)) ∧
    (∀ u v w, v ∈ component adj N u → w ∈ component adj N u → Reach adj v w) ∧
    (∀ u, u < N → (courtyardsDict adj stat N u).isSome) ∧
    (∀ u v, Reach adj u v → courtyardsDict adj stat N u = courtyardsDict adj stat N v) ∧
    (courtyardsFn adj stat N).length = N ∧
    (component exAdj 5 0 = [0, 1, 2] ∧ component exAdj 5 3 = [3, 4] ∧
      ∀ st : List Nat → Int, courtyardsFn exAdj st 5 =
        [some (st [0, 1, 2]), some (st [0, 1, 2]), some (st [0, 1, 2]),
          some (st [3, 4]), some (st [3, 4])]) := by
  refine ⟨fun u => self_mem_component adj N u,
    fun u v => mem_component_iff adj N hadj u v, ?_, ?_, ?_, ?_, ?_, ?_⟩
  · rintro u v ⟨x, hxu, hxv⟩ y
    rw [mem_component_iff adj N hadj u x] at hxu
    rw [mem_component_iff adj N hadj v x] at hxv
    rw [mem_component_iff adj N hadj u y, mem_component_iff adj N hadj v y]
    have huv : Reach adj u v := Relation.ReflTransGen.trans hxu (reach_symm adj hsym hxv)
    have hvu : Reach adj v u := reach_symm adj hsym huv
    exact ⟨fun h => Relation.ReflTransGen.trans hvu h,
      fun h => Relation.ReflTransGen.trans huv h⟩
  · intro u v w hv hw
    rw [mem_component_iff adj N hadj] at hv hw
    exact Relation.ReflTransGen.trans (reach_symm adj hsym hv) hw
  · intro u hu
    exact ((dictUpto_inv adj stat N hadj hsym N).1 u).mpr ⟨u, hu, Relation.ReflTransGen.refl⟩
  · exact (dictUpto_inv adj stat N hadj hsym N).2
  · simp [courtyardsFn]
  · exact ⟨by decide, by decide, fun st => rfl⟩

/-- Witness for C1: the partition theorem applied to the concrete 5-unit
scenario graph, all hypotheses discharged there. -/
theorem courtyards_partition_witness :
    0 ∈ component exAdj 5 0 ∧ (courtyardsDict exAdj (fun l => (l.length : Int)) 5 0).isSome ∧
    component exAdj 5 0 = [0, 1, 2] ∧ component exAdj 5 3 = [3, 4] := by
  have h := courtyards_partition exAdj (fun l => (l.length : Int)) 5 exAdj_bound exAdj_symm
  exact ⟨h.1 0, h.2.2.2.2.1 0 (by omega), h.2.2.2.2.2.2.2.1, h.2.2.2.2.2.2.2.2.1⟩

/-! ### Helper lemmas about list access and the reached iteration -/

theorem getD_map_lt {α β : Type} (f : α → β) (xs : List α) (i : Nat) (hi : i < xs.length)
    (d : β) (d' : α) : (xs.map f).getD i d = f (xs.getD i d') := by
  rw [List.getD_eq_getElem?_getD, List.getD_eq_getElem?_getD, List.getElem?_map,
    List.getElem?_eq_getElem hi]
  rfl

theorem range_getD (n i : Nat) (hi : i < n) (d : Nat) : (List.range n).getD i d = i := by
  rw [List.getD_eq_getElem?_getD, List.getElem?_range hi]
  rfl

theorem reachedGo_fst (leftIds : List Nat) :
    ∀ (idx : List Nat) (w0 w : Nat → List Nat), idx.Nodup → (∀ j ∈ idx, w j = w0 j) →
      (reachedGo leftIds idx w).1 =
        idx.map (fun i => (w0 i ++ [i]).filterMap (fun j => leftIds[j]?)) := by
  intro idx
  induction idx with
  | nil => intro w0 w _ _; rfl
  | cons i rest ih =>
    intro w0 w hnd hag
    have hnd' := List.nodup_cons.mp hnd
    have hag' : ∀ j ∈ rest, (fun j => if j = i then w i ++ [i] else w j) j = w0 j := by
      intro j hj
      have hji : j ≠ i := fun hcon => hnd'.1 (hcon ▸ hj)
      simp only [if_neg hji]
      exact hag j (List.mem_cons_of_mem _ hj)
    have htail := ih w0 _ hnd'.2 hag'
    show ((w i ++ [i]).filterMap (fun j => leftIds[j]?) ::
        (reachedGo leftIds rest (fun j => if j = i then w i ++ [i] else w j)).1) = _
    rw [htail, hag i (List.mem_cons_self _ _), List.map_cons]

theorem reachedIds_eq (leftIds : List Nat) (w : Nat → List Nat) :
    reachedIds leftIds w = (List.range leftIds.length).map
      (fun i => (w i ++ [i]).filterMap (fun j => leftIds[j]?)) := by
  unfold reachedIds reachedLoop
  exact reachedGo_fst leftIds (List.range leftIds.length) w w (List.nodup_range _)
    (fun _ _ => rfl)

theorem reachedIds_length (leftIds : List Nat) (w : Nat → List Nat) :
    (reachedIds leftIds w).length = leftIds.length := by
  rw [reachedIds_eq]
  simp

theorem reachedIds_getD (leftIds : List Nat) (w : Nat → List Nat) (i : Nat)
    (hi : i < leftIds.length) :
    (reachedIds leftIds w).getD i [] = (w i ++ [i]).filterMap (fun j => leftIds[j]?) := by
  rw [reachedIds_eq,
    getD_map_lt (fun i => (w i ++ [i]).filterMap (fun j => leftIds[j]?))
      (List.range leftIds.length) i (by simpa using hi) [] 0,
    range_getD leftIds.length i hi 0]

theorem filter_mem_cons_length (right : List Nat) (k : Nat) (ks : List Nat) (hk : k ∉ ks) :
    (right.filter (fun x => decide (x ∈ k :: ks))).length =
      (right.filter (fun x => decide (x = k))).length +
      (right.filter (fun x => decide (x ∈ ks))).length := by
  induction right with
  | nil => simp
  | cons r rs ih =>
    have hcons : ∀ (p : Nat → Bool), ((r :: rs).filter p).length =
        (if p r then 1 else 0) + (rs.filter p).length := by
      intro p
      by_cases hp : p r <;> simp [List.filter_cons, hp] <;> omega
    rw [hcons (fun x => decide (x ∈ k :: ks)), hcons (fun x => decide (x = k)),
      hcons (fun x => decide (x ∈ ks)), ih]
    by_cases h1 : r = k
    · subst h1
      simp [hk]
      omega
    · by_cases h2 : r ∈ ks <;> simp [h1, h2] <;> omega

theorem counter_sum_eq_filter_length (right : List Nat) :
    ∀ (ks : List Nat), ks.Nodup →
      (ks.map (fun k => counterOf right k)).sum =
        (right.filter (fun x => decide (x ∈ ks))).length := by
  intro ks
  induction ks with
  | nil => simp
  | cons k ks ih =>
    intro hnd
    have h := List.nodup_cons.mp hnd
    simp only [List.map_cons, List.sum_cons]
    rw [ih h.2, filter_mem_cons_length right k ks h.1]
    rfl

theorem filterMap_getElem_eq_map_getD (l : List Nat) :
    ∀ (js : List Nat), (∀ j ∈ js, j < l.length) →
      js.filterMap (fun j => l[j]?) = js.map (fun j => l.getD j 0) := by
  intro js
  induction js with
  | nil => intro _; rfl
  | cons j js ih =>
    intro hb
    have hj : j < l.length := hb j (List.mem_cons_self _ _)
    simp only [List.filterMap_cons, List.map_cons, List.getElem?_eq_getElem hj]
    rw [ih (fun x hx => hb x (List.mem_cons_of_mem _ hx))]
    congr 1
    rw [List.getD_eq_getElem?_getD, List.getElem?_eq_getElem hj]
    rfl

theorem reachedCount_getD (leftIds right : List Nat) (w : Nat → List Nat) (i : Nat)
    (hi : i < leftIds.length) :
    (reachedCount leftIds right w).getD i 0 =
      (((w i ++ [i]).filterMap (fun j => leftIds[j]?)).map (fun k => counterOf right k)).sum := by
  unfold reachedCount
  rw [getD_map_lt (fun ids => (ids.map (fun k => counterOf right k)).sum)
      (reachedIds leftIds w) i (by rw [reachedIds_length]; exact hi) 0 [],
    reachedIds_getD leftIds w i hi]

theorem reachedVals_length (leftIds : List Nat) (right : List (Nat × Option ℚ))
    (w : Nat → List Nat) : (reachedVals leftIds right w).length = leftIds.length := by
  unfold reachedVals
  rw [List.length_map, reachedIds_length]

/-- C2 (code-bug evidence): `reached` and `blocks_count` mutate the supplied
spatial weights.  `reached` (line 369) appends the seed index to the neighbor
list held by the weights object, so after processing `left = [10, 20]` with
weights `{0:[1], 1:[0]}` the stored neighbor list of 0 is `[1, 0]`, not the
original `[1]`; `blocks_count` (line 293) appends the row's unique id
likewise.  The claim that the adjacency structure is unchanged after the call
is contradicted by the code. -/
theorem reached_blocks_mutate_weights :
    (reachedLoop [10, 20] wPair).2 0 = [1, 0] ∧ wPair 0 = [1] ∧
    (reachedLoop [10, 20] wPair).2 0 ≠ wPair 0 ∧
    (blocks_count [⟨5, 1, 1⟩, ⟨6, 1, 1⟩] wBlk).2 5 = [6, 5] ∧ wBlk 5 = [6] ∧
    (blocks_count [⟨5, 1, 1⟩, ⟨6, 1, 1⟩] wBlk).2 5 ≠ wBlk 5 :=
  ⟨by decide, by decide, by decide, by decide, by decide, by decide⟩

/-- C4: in `reached` with mode `'count'`, provided the neighbor references
stay inside `left` and the street ids of the closed 1-hop neighborhood are
pairwise distinct, the result for a unit is the number of `right` records
whose key equals any street id of the closed neighborhood (the count of
joined records); and on the spec scenario (`left` ids `[10, 20]`, `right`
keys `[10, 10, 20]`, weights `{0:[1], 1:[0]}`) both segments reach 3. -/
theorem reached_count_records (leftIds right : List Nat) (w : Nat → List Nat) (i : Nat)
    (hi : i < leftIds.length) (hcl : ∀ j ∈ w i, j < leftIds.length)
    (hnd : ((w i ++ [i]).map (fun j => leftIds.getD j 0)).Nodup) :
    (reachedCount leftIds right w).getD i 0 =
      (right.filter
        (fun k => decide (k ∈ (w i ++ [i]).map (fun j => leftIds.getD j 0)))).length ∧
    reachedCount [10, 20] [10, 10, 20] wPair = [3, 3] := by
  constructor
  · have hb : ∀ j ∈ w i ++ [i], j < leftIds.length := by
      intro j hj
      rcases List.mem_append.mp hj with h | h
      · exact hcl j h
      · have hji : j = i := by simpa using h
        omega
    rw [reachedCount_getD leftIds right w i hi,
      filterMap_getElem_eq_map_getD leftIds (w i ++ [i]) hb,
      counter_sum_eq_filter_length right _ hnd]
  · decide

/-- Witness for C4: the theorem applied to the spec scenario. -/
theorem reached_count_records_witness :
    ((reachedCount [10, 20] [10, 10, 20] wPair).getD 0 0 =
      (([10, 10, 20] : List Nat).filter
        (fun k => decide (k ∈ (wPair 0 ++ [0]).map
          (fun j => ([10, 20] : List Nat).getD j 0)))).length) ∧
    reachedCount [10, 20] [10, 10, 20] wPair = [3, 3] :=
  reached_count_records [10, 20] [10, 10, 20] wPair 0 (by decide) (by decide) (by decide)

/-- C9 (counterexample): with the self-loop graph `{0:[0]}`, one street of id
10 and one `right` record keyed 10, `reached` count returns 2 (the seed's
record counted twice), not the deduplicated 1; `node_density` on one node with
a self-loop and one incident edge of length 2 counts the node twice and
returns `2 / 2 = 1`, not the deduplicated `1 / 2`. -/
theorem reached_self_loop_counterexample :
    reachedCount [10] [10] selfW = [2] ∧ reachedCount [10] [10] selfW ≠ [1] ∧
    node_density [1] [(0, 0, 2)] selfW false = [1] ∧
    node_density [1] [(0, 0, 2)] selfW false ≠ [1 / 2] := by
  have h3 : node_density [1] [(0, 0, 2)] selfW false = [1] := by
    simp [node_density, List.range_succ, incidentLength, nodeCount, selfW]
  refine ⟨by decide, by decide, h3, ?_⟩
  rw [h3]
  intro hcon
  have h4 : (1 : ℚ) = 1 / 2 := (List.cons.inj hcon).1
  norm_num at h4

/-- C9 (amended): the 1-hop operations do not deduplicate a self-looping
seed.  In `reached` count the seed appears in its own neighbor list and is
appended once more, so (under in-bounds references and otherwise distinct
ids) the result counts every record of the closed neighborhood once and the
seed's own records a second time. -/
theorem reached_self_loop_double (leftIds right : List Nat) (w : Nat → List Nat) (i : Nat)
    (hi : i < leftIds.length) (hcl : ∀ j ∈ w i, j < leftIds.length)
    (hself : i ∈ w i) (hnd : ((w i).map (fun j => leftIds.getD j 0)).Nodup) :
    (reachedCount leftIds right w).getD i 0 =
      (right.filter (fun k => decide (k ∈ (w i).map (fun j => leftIds.getD j 0)))).length +
      (right.filter (fun k => decide (k = leftIds.getD i 0))).length := by
  have hb : ∀ j ∈ w i ++ [i], j < leftIds.length := by
    intro j hj
    rcases List.mem_append.mp hj with h | h
    · exact hcl j h
    · have hji : j = i := by simpa using h
      omega
  rw [reachedCount_getD leftIds right w i hi,
    filterMap_getElem_eq_map_getD leftIds (w i ++ [i]) hb,
    List.map_append, List.map_append, List.sum_append,
    counter_sum_eq_filter_length right _ hnd]
  simp [counterOf]

/-- Witness for C9's amended theorem: the self-loop scenario, where the
single record keyed by the seed is counted twice (`2 = 1 + 1`). -/
theorem reached_self_loop_double_witness :
    (reachedCount [10] [10] selfW).getD 0 0 =
      (([10] : List Nat).filter
        (fun k => decide (k ∈ (selfW 0).map (fun j => ([10] : List Nat).getD j 0)))).length +
      (([10] : List Nat).filter (fun k => decide (k = ([10] : List Nat).getD 0 0))).length :=
  reached_self_loop_double [10] [10] selfW 0 (by decide) (by decide) (by decide) (by decide)

/-- C3: `reached` with mode `'mean'`/`'std'` propagates an undefined
aggregate as a missing value.  The batch always completes with one entry per
unit; a unit whose expanded neighborhood has no qualifying (non-missing)
values receives `none` — never the number 0 and never an exception aborting
the batch; over a non-empty qualifying set the result is the arithmetic mean,
resp. the population standard deviation (stated via its square `popVar`, see
there), of the non-missing values only. -/
theorem reached_mean_std_missing (leftIds : List Nat) (right : List (Nat × Option ℚ))
    (w : Nat → List Nat) (i : Nat) (hi : i < leftIds.length) :
    (reachedMean leftIds right w).length = leftIds.length ∧
    (reachedVar leftIds right w).length = leftIds.length ∧
    (qualVals leftIds right w i = [] →
      (reachedMean leftIds right w).getD i (some 0) = none ∧
      (reachedVar leftIds right w).getD i (some 0) = none ∧
      (reachedMean leftIds right w).getD i (some 0) ≠ some 0) ∧
    (qualVals leftIds right w i ≠ [] →
      (reachedMean leftIds right w).getD i none = some (arithMean (qualVals leftIds right w i)) ∧
      (reachedVar leftIds right w).getD i none = some (popVar (qualVals leftIds right w i))) := by
  have hlen : i < (reachedVals leftIds right w).length := by
    rw [reachedVals_length]; exact hi
  have hm0 : (reachedMean leftIds right w).getD i (some 0) =
      nanmean ((reachedVals leftIds right w).getD i []) :=
    getD_map_lt nanmean _ i hlen (some 0) []
  have hv0 : (reachedVar leftIds right w).getD i (some 0) =
      nanvar ((reachedVals leftIds right w).getD i []) :=
    getD_map_lt nanvar _ i hlen (some 0) []
  have hm1 : (reachedMean leftIds right w).getD i none =
      nanmean ((reachedVals leftIds right w).getD i []) :=
    getD_map_lt nanmean _ i hlen none []
  have hv1 : (reachedVar leftIds right w).getD i none =
      nanvar ((reachedVals leftIds right w).getD i []) :=
    getD_map_lt nanvar _ i hlen none []
  refine ⟨?_, ?_, ?_, ?_⟩
  · unfold reachedMean
    rw [List.length_map, reachedVals_length]
  · unfold reachedVar
    rw [List.length_map, reachedVals_length]
  · intro hq
    unfold qualVals at hq
    rw [List.getD_eq_getElem?_getD] at hq
    have hmean : nanmean ((reachedVals leftIds right w).getD i []) = none := by
      simp [nanmean, hq]
    have hvar : nanvar ((reachedVals leftIds right w).getD i []) = none := by
      simp [nanvar, hq]
    refine ⟨hm0.trans hmean, hv0.trans hvar, ?_⟩
    rw [hm0.trans hmean]
    simp
  · intro hq
    unfold qualVals at hq
    rw [List.getD_eq_getElem?_getD] at hq
    constructor
    · rw [hm1]
      simp [nanmean, qualVals, hq, arithMean]
    · rw [hv1]
      simp [nanvar, qualVals, hq]

/-- Witness for C3: one street of id 10 with no neighbors, one `right` record
keyed by the absent id 99 — no qualifying values, and the mean and std slots
hold the missing value `none`. -/
theorem reached_mean_std_missing_witness :
    (reachedMean [10] [(99, some 1)] emptyW).getD 0 (some 0) = none ∧
    (reachedVar [10] [(99, some 1)] emptyW).getD 0 (some 0) = none := by
  have h := reached_mean_std_missing [10] [(99, some 1)] emptyW 0 (by decide)
  have hq : qualVals [10] [(99, some 1)] emptyW 0 = [] := by decide
  exact ⟨(h.2.2.1 hq).1, (h.2.2.1 hq).2.1⟩

/-- C5 (code-bug evidence): a unit with an empty neighbor set.  `reached` and
`node_density` treat it as its own singleton neighborhood and produce a
result, but `blocks_count` binds `neighbours` to the bare scalar id (line
295) and `Series.isin(scalar)` raises `TypeError`, aborting the call instead
of producing a result. -/
theorem blocks_count_isolated_error :
    (blocks_count [⟨7, 1, 1⟩] emptyW).1 =
      Except.error "only list-like objects are allowed to be passed to isin()" ∧
    reachedCount [10] [10, 10] emptyW = [2] ∧
    (reachedIds [10] emptyW).getD 0 [] = [10] ∧
    node_density [1] [] emptyW false = [0] :=
  ⟨by rfl, by decide, by decide, by decide⟩

/-! ### Helper lemmas about elements_count and node_density -/

theorem zip_map_self {α β γ : Type} (l : List α) (f : α → β) (g : α × β → γ) :
    (l.zip (l.map f)).map g = l.map (fun x => g (x, f x)) := by
  induction l with
  | nil => rfl
  | cons a l ih => simp only [List.map_cons, List.zip_cons_cons, ih]

theorem elements_count_poly_eq (left : List GeomRow) (right : List Nat)
    (r0 : GeomRow) (rest : List GeomRow) (h : left = r0 :: rest) (hp : polygonal r0.gtype) :
    elements_count left right true =
      Except.ok (left.map (fun r => divF (counterOf right r.gid : ℚ) r.area)) := by
  subst h
  simp only [elements_count, if_pos hp]
  rw [zip_map_self]
  simp

theorem elements_count_lin_eq (left : List GeomRow) (right : List Nat)
    (r0 : GeomRow) (rest : List GeomRow) (h : left = r0 :: rest)
    (hnp : ¬polygonal r0.gtype) (hl : linear r0.gtype) :
    elements_count left right true =
      Except.ok (left.map (fun r => divF (counterOf right r.gid : ℚ) r.glen)) := by
  subst h
  simp only [elements_count, if_neg hnp, if_pos hl]
  rw [zip_map_self]
  simp

theorem elements_count_other_eq (left : List GeomRow) (right : List Nat)
    (r0 : GeomRow) (rest : List GeomRow) (h : left = r0 :: rest)
    (hnp : ¬polygonal r0.gtype) (hnl : ¬linear r0.gtype) :
    elements_count left right true =
      Except.error "Geometry type does not support weighting." := by
  subst h
  simp only [elements_count, if_neg hnp, if_neg hnl]
  simp

/-- C6 (counterexample): on a left frame whose first geometry is a polygon
and whose second unit is a point (a kind that is neither polygonal nor
linear), weighted `elements_count` raises no error at all — the point unit's
count is divided by its area — refuting the per-unit reading of the claim. -/
theorem elements_count_kind_counterexample :
    elements_count mixedL [0, 1] true = Except.ok [FloatVal.finite 1, FloatVal.inf] ∧
    (mixedL.getD 1 defRow).gtype = GType.point ∧
    ∀ e, elements_count mixedL [0, 1] true ≠ Except.error e := by
  have h : elements_count mixedL [0, 1] true = Except.ok [FloatVal.finite 1, FloatVal.inf] := by
    norm_num [elements_count, mixedL, counterOf, polygonal, linear, divF]
  refine ⟨h, by decide, fun e hc => ?_⟩
  rw [h] at hc
  exact Except.noConfusion hc

/-- C6 (amended): the geometry-kind dispatch of weighted `elements_count`
inspects only the FIRST unit's geometry kind: the unsupported-kind error is
raised iff the first unit's kind is neither polygonal nor linear, and if the
first unit is polygonal (resp. linear) every unit's count is divided by that
unit's own area (resp. length), regardless of the other units' kinds. -/
theorem elements_count_first_kind (left : List GeomRow) (right : List Nat)
    (r0 : GeomRow) (rest : List GeomRow) (h : left = r0 :: rest) :
    (¬polygonal r0.gtype ∧ ¬linear r0.gtype →
      elements_count left right true =
        Except.error "Geometry type does not support weighting.") ∧
    (polygonal r0.gtype →
      elements_count left right true =
        Except.ok (left.map (fun r => divF (counterOf right r.gid : ℚ) r.area))) ∧
    (¬polygonal r0.gtype → linear r0.gtype →
      elements_count left right true =
        Except.ok (left.map (fun r => divF (counterOf right r.gid : ℚ) r.glen))) :=
  ⟨fun hn => elements_count_other_eq left right r0 rest h hn.1 hn.2,
   fun hp => elements_count_poly_eq left right r0 rest h hp,
   fun hnp hl => elements_count_lin_eq left right r0 rest h hnp hl⟩

/-- Witness for C6's amended theorem: a single point-geometry unit makes
weighted `elements_count` fail with the unsupported-kind error. -/
theorem elements_count_first_kind_witness :
    elements_count [⟨5, GType.point, 0, 0⟩] [] true =
      Except.error "Geometry type does not support weighting." :=
  (elements_count_first_kind [⟨5, GType.point, 0, 0⟩] [] ⟨5, GType.point, 0, 0⟩ [] rfl).1
    ⟨by decide, by decide⟩

/-- C7 (counterexample): weighted `elements_count` on a polygonal unit of
area 0 silently returns infinity for that unit; no error of any kind is
signaled, refuting the claim that the call must fail. -/
theorem elements_count_zero_area_counterexample :
    elements_count zeroL [5] true = Except.ok [FloatVal.inf] ∧
    ∀ e, elements_count zeroL [5] true ≠ Except.error e := by
  have h : elements_count zeroL [5] true = Except.ok [FloatVal.inf] := by rfl
  refine ⟨h, fun e hc => ?_⟩
  rw [h] at hc
  exact Except.noConfusion hc

/-- C7 (amended): on a polygonal frame, a unit with area 0 and a positive
joined count receives `inf` from the float division, silently: the call
succeeds and that unit's slot holds infinity. -/
theorem elements_count_zero_area_inf (left : List GeomRow) (right : List Nat)
    (r0 : GeomRow) (rest : List GeomRow) (h : left = r0 :: rest)
    (hp : polygonal r0.gtype) (i : Nat) (hi : i < left.length)
    (ha : (left.getD i defRow).area = 0) (hc : 0 < counterOf right (left.getD i defRow).gid) :
    ∃ l, elements_count left right true = Except.ok l ∧
      l.getD i FloatVal.nan = FloatVal.inf := by
  refine ⟨_, elements_count_poly_eq left right r0 rest h hp, ?_⟩
  rw [getD_map_lt (fun r => divF (counterOf right r.gid : ℚ) r.area) left i hi
    FloatVal.nan defRow]
  simp only [List.getD_eq_getElem?_getD] at ha hc
  simp [divF, ha, hc]

/-- Witness for C7's amended theorem: the zero-area polygonal unit with one
joined record receives `inf`. -/
theorem elements_count_zero_area_inf_witness :
    ∃ l, elements_count zeroL [5] true = Except.ok l ∧
      l.getD 0 FloatVal.nan = FloatVal.inf :=
  elements_count_zero_area_inf zeroL [5] ⟨5, GType.polygon, 0, 0⟩ [] rfl (by decide) 0
    (by decide) (by decide) (by decide)

/-- C8: `node_density` returns 0 for every node whose closed neighborhood has
zero total incident edge length; the division is guarded by `length > 0` and
never performed on a zero total. -/
theorem node_density_zero_length (degrees : List ℚ) (edges : List (Nat × Nat × ℚ))
    (w : Nat → List Nat) (weighted : Bool) (i : Nat) (hi : i < degrees.length)
    (hlen : incidentLength edges (w i ++ [i]) = 0) :
    (node_density degrees edges w weighted).getD i 1 = 0 := by
  unfold node_density
  rw [getD_map_lt _ (List.range degrees.length) i (by simpa using hi) 1 0,
    range_getD degrees.length i hi 0]
  simp [hlen]

/-- Witness for C8: an isolated node of an edgeless network gets density 0. -/
theorem node_density_zero_length_witness :
    (node_density [1] [] emptyW false).getD 0 1 = 0 :=
  node_density_zero_length [1] [] emptyW false 0 (by decide) (by rfl)

/-- C10: `covered_area_ratio` and `floor_area_ratio` return identical result
series on every input: both join the right table's area column onto the left
table by the shared id and divide the joined value by the left-hand area,
merged row by merged row, so the two functions compute the same function. -/
theorem covered_eq_floor :
    ∀ (left right : List (Nat × ℚ)),
      covered_area_ratio left right = floor_area_ratio left right :=
  fun _ _ => rfl
